import Mathlib

/-!
Shallow embedding of the two scripts of this repository:
`esom_tracer.py` (coverage-gated ESOM class-file generation) and
`phylosift_bins.py` (offset-indexed taxonomy extraction).

Python machine integers are modelled as `Int`/`Nat`, Python floats as `ℚ`,
Python dicts as insertion-ordered association lists with in-place update
semantics, and the fallible NAMES-table parse as `Except`.
-/

namespace EsomTracer

/-- Insertion-ordered association list with Python-`dict` assignment
semantics: an existing key keeps its position and receives the new value,
a new key is appended at the end. -/
def dictInsert {α β : Type} [DecidableEq α] : List (α × β) → α → β → List (α × β)
  | [], k, v => [(k, v)]
  | p :: ps, k, v => if p.1 = k then (k, v) :: ps else p :: dictInsert ps k v

/-- Python-`dict` lookup (`d[k]`, and `k in d` via `isSome`). -/
def dictGet? {α β : Type} [DecidableEq α] : List (α × β) → α → Option β
  | [], _ => none
  | p :: ps, k => if p.1 = k then some p.2 else dictGet? ps k

/-- Result shape of `names_dict`: contig-ID → (sub-sequence-ID → point-ID string). -/
abbrev Registry := List (String × List (String × String))

/-- The `classes` dict of the script: integer point-ID → class index. -/
abbrev ClassMap := List (Int × Nat)

/-- The `taxa` dict of `color_taxa`: taxon name → class index. -/
abbrev TaxaMap := List (String × Nat)

/-- Python `line.strip()`: leading and trailing whitespace removed. -/
def pyStrip (s : String) : String :=
  ⟨((s.data.dropWhile Char.isWhitespace).reverse.dropWhile Char.isWhitespace).reverse⟩

/-- Helper of `splitTab`: accumulate the current field (reversed). -/
def splitTabAux : List Char → List Char → List String
  | [], acc => [⟨acc.reverse⟩]
  | c :: cs, acc =>
    if c = '\t' then ⟨acc.reverse⟩ :: splitTabAux cs []
    else splitTabAux cs (c :: acc)

/-- Python `line.split('\t')`. -/
def splitTab (s : String) : List String := splitTabAux s.data []

/-- Python `str.lower()`. -/
def pyLower (s : String) : String := ⟨s.data.map Char.toLower⟩

/-- Helper of `pyToInt`: accumulate decimal digits. -/
def digitsToNat : List Char → Nat → Nat
  | [], acc => acc
  | c :: cs, acc => digitsToNat cs (acc * 10 + (c.toNat - 48))

/-- Python `int(...)` on the decimal point-ID strings of the NAMES table. -/
def pyToInt (s : String) : Int :=
  match s.data with
  | '-' :: ds => -(digitsToNat ds 0 : Int)
  | ds => (digitsToNat ds 0 : Int)

/-- Helper of `pyStrOfNat`: emit decimal digits (`fuel` bounds the digit
count; `fuel = n` always suffices). -/
def natDigitsAux : Nat → Nat → List Char → List Char
  | 0, _, acc => acc
  | fuel + 1, n, acc =>
    if n = 0 then acc
    else natDigitsAux fuel (n / 10) (Char.ofNat (48 + n % 10) :: acc)

/-- Python `str(...)` of a non-negative integer. -/
def pyStrOfNat (n : Nat) : String :=
  if n = 0 then "0" else ⟨natDigitsAux n n []⟩

/-- Python `str(...)` of an integer. -/
def pyStrOfInt (i : Int) : String :=
  match i with
  | Int.ofNat n => pyStrOfNat n
  | Int.negSucc n => ⟨'-' :: (pyStrOfNat (n + 1)).data⟩

/-- An uncaught Python exception, as surfaced by the scripts.  The only
one the NAMES-table parse can raise is an `IndexError` from an
out-of-range `columns[i]` access; it carries no information about the
offending line. -/
inductive PyError : Type
  | indexError
deriving DecidableEq

/-- `names_dict`: the header line is discarded, every following line is
stripped, split on tabs and stored as
`temp_dict[columns[2]][columns[1]] = columns[0]`; a row with fewer than
three columns raises an uncaught `IndexError`. -/
def names_dict (lines : List String) : Except PyError Registry :=
  match lines with
  | [] => Except.ok []
  | _header :: rest =>
    rest.foldlM (fun reg line =>
      match splitTab (pyStrip line) with
      | c0 :: c1 :: c2 :: _ =>
        Except.ok (dictInsert reg c2 (dictInsert ((dictGet? reg c2).getD []) c1 c0))
      | _ => Except.error PyError.indexError) []

/-- The integer point-IDs of one contig's sub-sequence dict. -/
def pointsOfSubs (subs : List (String × String)) : List Int :=
  subs.map (fun s => pyToInt s.2)

/-- All integer point-IDs stored in the registry. -/
def registryPoints (names : Registry) : List Int :=
  names.flatMap (fun e => pointsOfSubs e.2)

/-- The points of one contig (`names_dict[contig]`), empty when the
contig is absent. -/
def pointsOf (names : Registry) (contig : String) : List Int :=
  pointsOfSubs ((dictGet? names contig).getD [])

/-- Abstraction of one reference sequence of the BAM/FASTA pair, the
black-box alignment capability of the spec: `readCount` is
`bam_handle.count(reference)`, `pileupColumns` the number of pileup
columns iterated by `bam_handle.pileup(reference)` (reference positions
with at least one aligned read), `refLength` is
`fasta_handle.get_reference_length(reference)`. -/
structure RefInfo : Type where
  name : String
  readCount : Nat
  pileupColumns : Nat
  refLength : Nat
deriving DecidableEq

/-- The argparse default of the `-c`/`--coverage` option. -/
def coverage_default : Nat := 50

/-- The reference-filtering loop of `__main__` run under `args.bam`:
references with a non-zero read count whose base coverage reaches the
threshold are inserted into the `references` dict (keys only, in file
order). -/
def coverageFilter (refs : List RefInfo) (coverage : Nat) : List String :=
  refs.foldl (fun acc r =>
    if r.readCount ≠ 0 then
      let baseCoverage : ℚ := (r.pileupColumns : ℚ) / (r.refLength : ℚ)
      let coverageThreshold : ℚ := (coverage : ℚ) / 100
      if baseCoverage ≥ coverageThreshold then acc ++ [r.name] else acc
    else acc) []

/-- One data row of the taxonomy table, keeping the columns the script
reads: `columns[0]` (contig), `columns[3]` (rank), `columns[4]` (taxon). -/
structure TaxRow : Type where
  contig : String
  rank : String
  taxon : String
deriving DecidableEq

/-- `references[columns[0]] = ''`: dict insertion of a key (the values
are all the empty string, so only the ordered key list is kept). -/
def refInsert (refs : List String) (c : String) : List String :=
  if c ∈ refs then refs else refs ++ [c]

/-- `for sub_name in names_dict[c]: classes[int(names_dict[c][sub_name])] = cls`. -/
def assignContig (names : Registry) (contig : String) (cls : Nat)
    (classes : ClassMap) : ClassMap :=
  ((dictGet? names contig).getD []).foldl
    (fun cl s => dictInsert cl (pyToInt s.2) cls) classes

/-- The mutable state of `color_taxa`'s scanning loop, including the
global `references` dict that the loop mutates when no BAM was given. -/
structure ColorState : Type where
  taxa : TaxaMap
  classes : ClassMap
  taxa_number : Nat
  references : List String
deriving DecidableEq

/-- One iteration of the `for line in tax_handle` loop of `color_taxa`
(`tl` is the already-lowercased `tax_level`). -/
def color_taxa_step (names : Registry) (hasBam : Bool) (tl : String)
    (st : ColorState) (row : TaxRow) : ColorState :=
  let refs := if hasBam then st.references else refInsert st.references row.contig
  if (dictGet? names row.contig).isSome ∧ row.contig ∈ refs ∧ row.rank = tl then
    let taxa := if (dictGet? st.taxa row.taxon).isSome then st.taxa
      else dictInsert st.taxa row.taxon st.taxa_number
    let taxa_number := if (dictGet? st.taxa row.taxon).isSome then st.taxa_number
      else st.taxa_number + 1
    { taxa := taxa
      classes := assignContig names row.contig ((dictGet? taxa row.taxon).getD 0) st.classes
      taxa_number := taxa_number
      references := refs }
  else
    { st with references := refs }

/-- The scanning phase of `color_taxa`: lowercase `tax_level` once, then
fold the taxonomy rows over the loop body. -/
def color_taxa_scan (names : Registry) (references : List String) (hasBam : Bool)
    (rows : List TaxRow) (tax_level : String) : ColorState :=
  rows.foldl (color_taxa_step names hasBam (pyLower tax_level))
    { taxa := [], classes := [], taxa_number := 1, references := references }

/-- The default-fill loop of `color_taxa`: every registry point not yet
in `classes` is assigned class `0`. -/
def fillZeros (names : Registry) (classes : ClassMap) : ClassMap :=
  names.foldl (fun cl e =>
    e.2.foldl (fun cl2 s =>
      if (dictGet? cl2 (pyToInt s.2)).isSome then cl2
      else dictInsert cl2 (pyToInt s.2) 0) cl) classes

/-- `color_taxa`: scan, then default-fill. -/
def color_taxa (names : Registry) (references : List String) (hasBam : Bool)
    (rows : List TaxRow) (tax_level : String) : ColorState :=
  let st := color_taxa_scan names references hasBam rows tax_level
  { st with classes := fillZeros names st.classes }

/-- Row eligibility as the scan's membership test effectively evaluates:
the contig is a registry key, the contig passed the coverage filter when
a BAM was given (the bypass makes the test vacuous otherwise), and the
raw rank column equals the lowercased requested rank. -/
def eligibleRow (names : Registry) (hasBam : Bool) (refs0 : List String)
    (tl : String) (row : TaxRow) : Bool :=
  (dictGet? names row.contig).isSome && (!hasBam || refs0.contains row.contig)
    && (row.rank == tl)

/-- The taxon names of the eligible rows, in file order. -/
def eligTaxa (names : Registry) (hasBam : Bool) (refs0 : List String)
    (tl : String) (rows : List TaxRow) : List String :=
  (rows.filter (eligibleRow names hasBam refs0 tl)).map TaxRow.taxon

/-- Helper for `firstSeen`. -/
def firstSeenAux (seen : List String) : List String → List String
  | [] => []
  | a :: l => if a ∈ seen then firstSeenAux seen l else a :: firstSeenAux (a :: seen) l

/-- The distinct members of a list, in order of first appearance. -/
def firstSeen (l : List String) : List String := firstSeenAux [] l

/-- Python `int()` on a rational: truncation toward zero. -/
def pyIntQ (q : ℚ) : ℤ := if q < 0 then -⌊-q⌋ else ⌊q⌋

/-- `colorsys.hsv_to_rgb` over exact rationals. -/
def hsv_to_rgb (h s v : ℚ) : ℚ × ℚ × ℚ :=
  if s = 0 then (v, v, v) else
  let i := pyIntQ (h * 6)
  let f := h * 6 - (i : ℚ)
  let p := v * (1 - s)
  let q := v * (1 - s * f)
  let t := v * (1 - s * (1 - f))
  let im := i % 6
  if im = 0 then (v, t, p)
  else if im = 1 then (q, v, p)
  else if im = 2 then (p, v, t)
  else if im = 3 then (p, q, t)
  else if im = 4 then (t, v, q)
  else (p, v, q)

/-- `rainbow_picker`: `scale` evenly spaced hues starting at 0 with
saturation and value 1, each converted to RGB and scaled by 255
(the components stay rationals — Python floats — and are not rounded). -/
def rainbow_picker (scale : Nat) : List (ℚ × ℚ × ℚ) :=
  ((List.range scale).map (fun (i : Nat) => ((i : ℚ) / (scale : ℚ), (1 : ℚ), (1 : ℚ)))).map
    (fun x =>
      let rgb := hsv_to_rgb x.1 x.2.1 x.2.2
      (rgb.1 * 255, rgb.2.1 * 255, rgb.2.2 * 255))

/-- The binary-mode class assignment of `__main__` (no taxonomy table):
every point of a contig gets class 1 when the contig is a key of
`references`, class 0 otherwise. -/
def binaryClasses (names : Registry) (references : List String) : ClassMap :=
  names.foldl (fun classes e =>
    let hit := references.contains e.1
    e.2.foldl (fun cl s => dictInsert cl (pyToInt s.2) (if hit then 1 else 0)) classes) []

/-- The fixed binary-mode palette lines of `__main__`. -/
def binary_header_colors : List String := ["%0 255\t255\t255", "%1 255\t0\t0"]

/-- Comparison of `taxa.items()` by value, the sort key of the legend. -/
def taxaValLE (p q : String × Nat) : Prop := p.2 ≤ q.2

instance : DecidableRel taxaValLE := fun p q => inferInstanceAs (Decidable (p.2 ≤ q.2))

instance : IsTotal (String × Nat) taxaValLE := ⟨fun p q => Nat.le_total p.2 q.2⟩

instance : IsTrans (String × Nat) taxaValLE := ⟨fun _ _ _ h h2 => Nat.le_trans h h2⟩

/-- The `.taxa` legend body: `sorted(taxa.items(), key=lambda x: x[1])`,
each item written as (class index, taxon name). -/
def legendOf (taxa : TaxaMap) : List (Nat × String) :=
  (List.insertionSort taxaValLE taxa).map (fun p => (p.2, p.1))

/-- `sorted(classes.keys())`. -/
def sortedKeys (classes : ClassMap) : List Int :=
  List.insertionSort (fun a b : Int => a ≤ b) (classes.map Prod.fst)

/-- The per-point body of the class file, as (point, class) pairs in
output order. -/
def classBody (classes : ClassMap) : List (Int × Nat) :=
  (sortedKeys classes).map (fun k => (k, (dictGet? classes k).getD 0))

/-- The per-point body of the class file, as written lines. -/
def classLines (classes : ClassMap) : List String :=
  (classBody classes).map (fun p => pyStrOfInt p.1 ++ "\t" ++ pyStrOfNat p.2)

/-- The whole class file: `% len(references)` header, palette lines,
then one line per point in ascending point order. -/
def classFile (references : List String) (header_colors : List String)
    (classes : ClassMap) : List String :=
  ("% " ++ pyStrOfNat references.length) :: header_colors ++ classLines classes

end EsomTracer

namespace PhylosiftBins

/-- Python `f.readline()` from a given suffix of the stream: the
characters up to and including the first newline (or to the end). -/
def readline : List Char → List Char
  | [] => []
  | c :: cs => if c = '\n' then [c] else c :: readline cs

/-- Python `str.strip()`. -/
def stripWs (l : List Char) : List Char :=
  ((l.dropWhile Char.isWhitespace).reverse.dropWhile Char.isWhitespace).reverse

/-- The first field of Python `split(sep)`: the prefix before the first
separator. -/
def fieldUpTo (sep : Char) (l : List Char) : List Char :=
  l.takeWhile (fun c => c != sep)

/-- `line.strip().split('\t')[0].split(' ')[0]`: the read identifier. -/
def extractName (line : List Char) : List Char :=
  fieldUpTo ' ' (fieldUpTo '\t' (stripWs line))

/-- The indexing loop of `main`: record the current byte offset, read one
line, extract the identifier, repeat until the stream is exhausted.
`fuel` bounds the number of iterations; every iteration consumes at
least one character, so the `content.length` supplied by `file_index`
never truncates. -/
def buildIndexAux : Nat → List Char → Nat → List (List Char × Nat)
  | 0, _, _ => []
  | _ + 1, [], _ => []
  | fuel + 1, c :: cs, pos =>
    let line := readline (c :: cs)
    (extractName line, pos) :: buildIndexAux fuel ((c :: cs).drop line.length) (pos + line.length)

/-- The `file_index` of `main` as (identifier, offset) pairs in scan
order: the header line is discarded, then every data line contributes
the offset at which it starts.  The defaultdict of the script groups
these pairs by identifier, preserving scan order within a key. -/
def file_index (content : List Char) : List (List Char × Nat) :=
  let header := readline content
  buildIndexAux content.length (content.drop header.length) header.length

/-- The offset list `file_index[r]`, in insertion (= file) order. -/
def offsetsFor (content : List Char) (r : List Char) : List Nat :=
  ((file_index content).filter (fun p => p.1 == r)).map Prod.snd

end PhylosiftBins

namespace EsomTracer

section DictLemmas

variable {α β : Type} [DecidableEq α]

theorem dictGet?_dictInsert_self (l : List (α × β)) (k : α) (v : β) :
    dictGet? (dictInsert l k v) k = some v := by
  induction l with
  | nil => simp [dictInsert, dictGet?]
  | cons p ps ih =>
    by_cases h : p.1 = k
    · simp [dictInsert, h, dictGet?]
    · simp [dictInsert, h, dictGet?, ih]

theorem dictGet?_dictInsert_ne (l : List (α × β)) (k k' : α) (v : β) (h : k' ≠ k) :
    dictGet? (dictInsert l k v) k' = dictGet? l k' := by
  induction l with
  | nil =>
    have hk : ¬(k = k') := fun hh => h hh.symm
    simp [dictInsert, dictGet?, hk]
  | cons p ps ih =>
    by_cases hp : p.1 = k
    · have hps : p.1 ≠ k' := hp ▸ Ne.symm h
      simp [dictInsert, hp, dictGet?, Ne.symm h, hps]
    · by_cases hk : p.1 = k'
      · simp [dictInsert, hp, dictGet?, hk, h]
      · simp [dictInsert, hp, dictGet?, hk, ih]

theorem mem_keys_dictInsert (l : List (α × β)) (k k' : α) (v : β) :
    k' ∈ (dictInsert l k v).map Prod.fst ↔ k' ∈ l.map Prod.fst ∨ k' = k := by
  induction l with
  | nil => simp [dictInsert]
  | cons p ps ih =>
    by_cases hp : p.1 = k
    · subst hp; simp [dictInsert]; tauto
    · simp [dictInsert, hp, ih]; tauto

theorem isSome_dictGet? (l : List (α × β)) (k : α) :
    (dictGet? l k).isSome = true ↔ k ∈ l.map Prod.fst := by
  induction l with
  | nil => simp [dictGet?]
  | cons p ps ih =>
    by_cases hp : p.1 = k
    · simp [dictGet?, hp]
    · simp [dictGet?, hp, ih, Ne.symm hp]

theorem dictGet?_eq_none (l : List (α × β)) (k : α) :
    dictGet? l k = none ↔ k ∉ l.map Prod.fst := by
  rw [← isSome_dictGet?]
  cases dictGet? l k <;> simp

theorem dictInsert_of_not_mem (l : List (α × β)) (k : α) (v : β)
    (h : k ∉ l.map Prod.fst) : dictInsert l k v = l ++ [(k, v)] := by
  induction l with
  | nil => simp [dictInsert]
  | cons p ps ih =>
    rw [List.map_cons, List.mem_cons, not_or] at h
    have hpk : ¬(p.1 = k) := fun hh => h.1 hh.symm
    simp only [dictInsert, if_neg hpk, ih h.2, List.cons_append]

theorem keys_dictInsert_of_mem (l : List (α × β)) (k : α) (v : β)
    (h : k ∈ l.map Prod.fst) :
    (dictInsert l k v).map Prod.fst = l.map Prod.fst := by
  induction l with
  | nil => simp at h
  | cons p ps ih =>
    by_cases hp : p.1 = k
    · simp [dictInsert, hp]
    · rw [List.map_cons, List.mem_cons] at h
      have hk : k ∈ ps.map Prod.fst := h.resolve_left (fun hh => hp hh.symm)
      simp [dictInsert, hp, ih hk]

theorem nodup_keys_dictInsert (l : List (α × β)) (k : α) (v : β)
    (h : (l.map Prod.fst).Nodup) : ((dictInsert l k v).map Prod.fst).Nodup := by
  by_cases hm : k ∈ l.map Prod.fst
  · rw [keys_dictInsert_of_mem l k v hm]; exact h
  · rw [dictInsert_of_not_mem l k v hm, List.map_append]
    simp [List.nodup_append, h, hm]

theorem dictGet?_some_mem (l : List (α × β)) (k : α) (v : β)
    (h : dictGet? l k = some v) : (k, v) ∈ l := by
  induction l with
  | nil => simp [dictGet?] at h
  | cons p ps ih =>
    by_cases hp : p.1 = k
    · rw [dictGet?, if_pos hp] at h
      have hv : p.2 = v := by injection h
      have : p = (k, v) := by
        cases p
        simp only at hp hv
        rw [hp, hv]
      rw [← this]
      exact List.mem_cons_self p ps
    · rw [dictGet?, if_neg hp] at h
      exact List.mem_cons_of_mem _ (ih h)

theorem dictGet?_foldl_insert_const {γ : Type} (xs : List γ) (f : γ → α) (v : β)
    (cl0 : List (α × β)) (p : α) :
    dictGet? (xs.foldl (fun cl x => dictInsert cl (f x) v) cl0) p =
      if p ∈ xs.map f then some v else dictGet? cl0 p := by
  induction xs generalizing cl0 with
  | nil => simp
  | cons x xs ih =>
    rw [List.foldl_cons, ih]
    by_cases hx : p ∈ xs.map f
    · simp [hx]
    · by_cases hp : p = f x
      · simp [hx, hp, dictGet?_dictInsert_self]
      · simp [hx, hp, dictGet?_dictInsert_ne _ _ _ _ hp]

theorem mem_keys_foldl_dictInsert {γ : Type} (xs : List γ) (f : γ → α) (g : γ → β)
    (cl0 : List (α × β)) (p : α) :
    p ∈ (xs.foldl (fun cl x => dictInsert cl (f x) (g x)) cl0).map Prod.fst ↔
      p ∈ cl0.map Prod.fst ∨ p ∈ xs.map f := by
  induction xs generalizing cl0 with
  | nil => simp
  | cons x xs ih =>
    rw [List.foldl_cons, ih, mem_keys_dictInsert, List.map_cons, List.mem_cons]
    tauto

theorem nodup_keys_foldl_dictInsert {γ : Type} (xs : List γ) (f : γ → α) (g : γ → β)
    (cl0 : List (α × β)) (h : (cl0.map Prod.fst).Nodup) :
    ((xs.foldl (fun cl x => dictInsert cl (f x) (g x)) cl0).map Prod.fst).Nodup := by
  induction xs generalizing cl0 with
  | nil => exact h
  | cons x xs ih => exact ih _ (nodup_keys_dictInsert _ _ _ h)

theorem dictGet?_foldl_condInsert {γ : Type} (xs : List γ) (f : γ → α) (v : β)
    (cl0 : List (α × β)) (p : α) :
    dictGet? (xs.foldl (fun cl x =>
        if (dictGet? cl (f x)).isSome then cl else dictInsert cl (f x) v) cl0) p =
      if (dictGet? cl0 p).isSome then dictGet? cl0 p
      else if p ∈ xs.map f then some v else none := by
  induction xs generalizing cl0 with
  | nil => cases h : dictGet? cl0 p <;> simp [h]
  | cons x xs ih =>
    rw [List.foldl_cons, ih]
    by_cases h0 : (dictGet? cl0 (f x)).isSome
    · rw [if_pos h0]
      by_cases hp0 : (dictGet? cl0 p).isSome
      · simp [hp0]
      · have hpx : ¬(p = f x) := by
          intro hh
          rw [hh] at hp0
          exact hp0 h0
        simp [hp0, hpx]
    · rw [if_neg h0]
      by_cases hpx : p = f x
      · rw [hpx, dictGet?_dictInsert_self]
        simp [h0]
      · rw [dictGet?_dictInsert_ne _ _ _ _ hpx]
        by_cases hp0 : (dictGet? cl0 p).isSome
        · simp [hp0]
        · simp [hp0, hpx]

theorem mem_keys_foldl_condInsert {γ : Type} (xs : List γ) (f : γ → α) (v : β)
    (cl0 : List (α × β)) (p : α) :
    p ∈ (xs.foldl (fun cl x =>
        if (dictGet? cl (f x)).isSome then cl else dictInsert cl (f x) v) cl0).map
          Prod.fst ↔
      p ∈ cl0.map Prod.fst ∨ p ∈ xs.map f := by
  induction xs generalizing cl0 with
  | nil => simp
  | cons x xs ih =>
    rw [List.foldl_cons, ih]
    by_cases h0 : (dictGet? cl0 (f x)).isSome
    · rw [if_pos h0]
      have hx : f x ∈ cl0.map Prod.fst := (isSome_dictGet? _ _).mp h0
      rw [List.map_cons, List.mem_cons]
      constructor
      · tauto
      · rintro (h | h | h)
        · exact Or.inl h
        · exact Or.inl (h ▸ hx)
        · exact Or.inr h
      
    · rw [if_neg h0, mem_keys_dictInsert, List.map_cons, List.mem_cons]
      tauto

theorem nodup_keys_foldl_condInsert {γ : Type} (xs : List γ) (f : γ → α) (v : β)
    (cl0 : List (α × β)) (h : (cl0.map Prod.fst).Nodup) :
    ((xs.foldl (fun cl x =>
        if (dictGet? cl (f x)).isSome then cl else dictInsert cl (f x) v) cl0).map
          Prod.fst).Nodup := by
  induction xs generalizing cl0 with
  | nil => exact h
  | cons x xs ih =>
    rw [List.foldl_cons]
    refine ih _ ?_
    by_cases h0 : (dictGet? cl0 (f x)).isSome
    · rw [if_pos h0]; exact h
    · rw [if_neg h0]; exact nodup_keys_dictInsert _ _ _ h

end DictLemmas

section FirstSeenLemmas

theorem mem_firstSeenAux (seen l : List String) (x : String) :
    x ∈ firstSeenAux seen l ↔ x ∈ l ∧ x ∉ seen := by
  induction l generalizing seen with
  | nil => simp [firstSeenAux]
  | cons a l ih =>
    by_cases ha : a ∈ seen
    · rw [firstSeenAux, if_pos ha, ih, List.mem_cons]
      constructor
      · rintro ⟨h1, h2⟩; exact ⟨Or.inr h1, h2⟩
      · rintro ⟨h1 | h1, h2⟩
        · exact absurd (h1 ▸ ha) h2
        · exact ⟨h1, h2⟩
    · rw [firstSeenAux, if_neg ha, List.mem_cons, ih, List.mem_cons, List.mem_cons]
      by_cases hx : x = a
      · subst hx; simp [ha]
      · simp [hx]

theorem nodup_firstSeenAux (seen l : List String) : (firstSeenAux seen l).Nodup := by
  induction l generalizing seen with
  | nil => simp [firstSeenAux]
  | cons a l ih =>
    by_cases ha : a ∈ seen
    · rw [firstSeenAux, if_pos ha]; exact ih seen
    · rw [firstSeenAux, if_neg ha]
      refine List.Nodup.cons ?_ (ih (a :: seen))
      intro hmem
      exact ((mem_firstSeenAux _ _ _).mp hmem).2 (List.mem_cons_self a seen)

theorem mem_firstSeen (l : List String) (x : String) : x ∈ firstSeen l ↔ x ∈ l := by
  rw [firstSeen, mem_firstSeenAux]
  simp

theorem nodup_firstSeen (l : List String) : (firstSeen l).Nodup :=
  nodup_firstSeenAux [] l

theorem firstSeenAux_append_singleton (l : List String) (t : String) :
    ∀ seen, firstSeenAux seen (l ++ [t]) =
      firstSeenAux seen l ++ (if t ∈ seen ∨ t ∈ l then [] else [t]) := by
  induction l with
  | nil =>
    intro seen
    by_cases ht : t ∈ seen <;> simp [firstSeenAux, ht]
  | cons a l ih =>
    intro seen
    by_cases ha : a ∈ seen
    · rw [List.cons_append, firstSeenAux, if_pos ha, ih seen, firstSeenAux, if_pos ha]
      have hiff : (t ∈ seen ∨ t ∈ l) ↔ (t ∈ seen ∨ t ∈ a :: l) := by
        rw [List.mem_cons]
        constructor
        · tauto
        · rintro (h | h | h)
          · exact Or.inl h
          · exact Or.inl (h ▸ ha)
          · exact Or.inr h
      rw [if_congr hiff rfl rfl]
    · rw [List.cons_append, firstSeenAux, if_neg ha, ih (a :: seen), firstSeenAux,
        if_neg ha, List.cons_append]
      have hiff : (t ∈ a :: seen ∨ t ∈ l) ↔ (t ∈ seen ∨ t ∈ a :: l) := by
        rw [List.mem_cons, List.mem_cons]
        tauto
      rw [if_congr hiff rfl rfl]

theorem firstSeen_append_singleton (l : List String) (t : String) :
    firstSeen (l ++ [t]) = firstSeen l ++ (if t ∈ l then [] else [t]) := by
  rw [firstSeen, firstSeenAux_append_singleton l t [], firstSeen]
  have hiff : (t ∈ ([] : List String) ∨ t ∈ l) ↔ t ∈ l := by simp
  rw [if_congr hiff rfl rfl]

theorem length_firstSeen_eq_length_dedup (l : List String) :
    (firstSeen l).length = l.dedup.length := by
  have hperm : (firstSeen l).Perm l.dedup := by
    rw [List.perm_ext_iff_of_nodup (nodup_firstSeen l) (List.nodup_dedup l)]
    intro a
    rw [mem_firstSeen, List.mem_dedup]
  exact hperm.length_eq

end FirstSeenLemmas

section ComponentLemmas

theorem pointsOfSubs_eq_map (subs : List (String × String)) :
    pointsOfSubs subs = subs.map (fun s => pyToInt s.2) := rfl

theorem registryPoints_nil : registryPoints [] = [] := rfl

theorem registryPoints_cons (e : String × List (String × String)) (names : Registry) :
    registryPoints (e :: names) = pointsOfSubs e.2 ++ registryPoints names := rfl

theorem mem_refInsert (l : List String) (c x : String) :
    x ∈ refInsert l c ↔ x ∈ l ∨ x = c := by
  unfold refInsert
  by_cases h : c ∈ l
  · rw [if_pos h]
    constructor
    · exact Or.inl
    · rintro (hx | hx)
      · exact hx
      · exact hx ▸ h
  · rw [if_neg h]
    simp [List.mem_append]

theorem mem_refInsert_self (l : List String) (c : String) : c ∈ refInsert l c :=
  (mem_refInsert l c c).mpr (Or.inr rfl)

theorem nodup_refInsert (l : List String) (c : String) (h : l.Nodup) :
    (refInsert l c).Nodup := by
  unfold refInsert
  by_cases hc : c ∈ l
  · rw [if_pos hc]; exact h
  · rw [if_neg hc]
    simp [List.nodup_append, h, hc]

theorem nodup_refInsert_foldl (xs : List String) (acc : List String) (h : acc.Nodup) :
    (xs.foldl refInsert acc).Nodup := by
  induction xs generalizing acc with
  | nil => exact h
  | cons x xs ih => exact ih _ (nodup_refInsert _ _ h)

theorem mem_refInsert_foldl (xs : List String) (acc : List String) (x : String) :
    x ∈ xs.foldl refInsert acc ↔ x ∈ acc ∨ x ∈ xs := by
  induction xs generalizing acc with
  | nil => simp
  | cons y xs ih =>
    rw [List.foldl_cons, ih, mem_refInsert, List.mem_cons]
    tauto

theorem length_refInsert_foldl_nil (xs : List String) :
    (xs.foldl refInsert []).length = xs.dedup.length := by
  have hperm : (xs.foldl refInsert []).Perm xs.dedup := by
    rw [List.perm_ext_iff_of_nodup (nodup_refInsert_foldl xs [] List.nodup_nil)
      (List.nodup_dedup xs)]
    intro a
    rw [mem_refInsert_foldl, List.mem_dedup]
    simp
  exact hperm.length_eq

theorem dictGet?_assignContig (names : Registry) (c : String) (cls : Nat)
    (classes : ClassMap) (p : Int) :
    dictGet? (assignContig names c cls classes) p =
      if p ∈ pointsOf names c then some cls else dictGet? classes p := by
  unfold assignContig pointsOf pointsOfSubs
  exact dictGet?_foldl_insert_const _ _ _ _ _

theorem dictGet?_fillZeros (names : Registry) (classes : ClassMap) (p : Int) :
    dictGet? (fillZeros names classes) p =
      if (dictGet? classes p).isSome then dictGet? classes p
      else if p ∈ registryPoints names then some 0 else none := by
  induction names generalizing classes with
  | nil =>
    rw [registryPoints_nil]
    cases h : dictGet? classes p <;> simp [h, fillZeros]
  | cons e names ih =>
    have hstep : fillZeros (e :: names) classes =
        fillZeros names (e.2.foldl (fun cl2 s =>
          if (dictGet? cl2 (pyToInt s.2)).isSome then cl2
          else dictInsert cl2 (pyToInt s.2) 0) classes) := rfl
    rw [hstep, ih, dictGet?_foldl_condInsert]
    by_cases h1 : (dictGet? classes p).isSome
    · simp [h1]
    · rw [if_neg h1]
      by_cases h2 : p ∈ e.2.map (fun s => pyToInt s.2)
      · have hm : p ∈ registryPoints (e :: names) := by
          rw [registryPoints_cons, pointsOfSubs_eq_map]
          exact List.mem_append_left _ h2
        simp [h1, h2, hm]
      · have hiff : p ∈ registryPoints (e :: names) ↔ p ∈ registryPoints names := by
          rw [registryPoints_cons, pointsOfSubs_eq_map, List.mem_append]
          constructor
          · rintro (h | h)
            · exact absurd h h2
            · exact h
          · exact Or.inr
        rw [if_neg h2]
        by_cases h3 : p ∈ registryPoints names
        · simp [h1, h3, hiff.mpr h3]
        · have h4 : p ∉ registryPoints (e :: names) := fun hh => h3 (hiff.mp hh)
          simp [h1, h3, h4]

theorem mem_keys_fillZeros (names : Registry) (classes : ClassMap) (p : Int) :
    p ∈ (fillZeros names classes).map Prod.fst ↔
      p ∈ classes.map Prod.fst ∨ p ∈ registryPoints names := by
  induction names generalizing classes with
  | nil =>
    rw [registryPoints_nil]
    simp [fillZeros]
  | cons e names ih =>
    have hstep : fillZeros (e :: names) classes =
        fillZeros names (e.2.foldl (fun cl2 s =>
          if (dictGet? cl2 (pyToInt s.2)).isSome then cl2
          else dictInsert cl2 (pyToInt s.2) 0) classes) := rfl
    rw [hstep, ih, mem_keys_foldl_condInsert, registryPoints_cons, pointsOfSubs_eq_map,
      List.mem_append]
    tauto

theorem nodup_keys_fillZeros (names : Registry) (classes : ClassMap)
    (h : (classes.map Prod.fst).Nodup) :
    ((fillZeros names classes).map Prod.fst).Nodup := by
  induction names generalizing classes with
  | nil => exact h
  | cons e names ih => exact ih _ (nodup_keys_foldl_condInsert _ _ _ _ h)

theorem binaryClasses_eq (names : Registry) (references : List String) :
    binaryClasses names references =
      names.foldl (fun classes e =>
        e.2.foldl (fun cl s => dictInsert cl (pyToInt s.2)
          (if references.contains e.1 then 1 else 0)) classes) [] := rfl

theorem dictGet?_binFold (references : List String) (c : String) (p : Int)
    (names : Registry) (cl0 : ClassMap)
    (hU : ∀ e ∈ names, p ∈ pointsOfSubs e.2 → e.1 = c) :
    dictGet? (names.foldl (fun classes e =>
        e.2.foldl (fun cl s => dictInsert cl (pyToInt s.2)
          (if references.contains e.1 then 1 else 0)) classes) cl0) p =
      if p ∈ registryPoints names then some (if references.contains c then 1 else 0)
      else dictGet? cl0 p := by
  induction names generalizing cl0 with
  | nil =>
    rw [registryPoints_nil]
    simp
  | cons e names ih =>
    simp only [List.foldl_cons]
    rw [ih _ (fun e' he' hp' => hU e' (List.mem_cons_of_mem _ he') hp'),
      dictGet?_foldl_insert_const]
    by_cases h2 : p ∈ e.2.map (fun s => pyToInt s.2)
    · have hc : e.1 = c := hU e (List.mem_cons_self e names) (by
        rw [pointsOfSubs_eq_map]; exact h2)
      have hm : p ∈ registryPoints (e :: names) := by
        rw [registryPoints_cons, pointsOfSubs_eq_map]
        exact List.mem_append_left _ h2
      by_cases h3 : p ∈ registryPoints names
      · simp [h2, h3, hm, hc]
      · simp [h2, h3, hm, hc]
    · have hiff : p ∈ registryPoints (e :: names) ↔ p ∈ registryPoints names := by
        rw [registryPoints_cons, pointsOfSubs_eq_map, List.mem_append]
        constructor
        · rintro (h | h)
          · exact absurd h h2
          · exact h
        · exact Or.inr
      rw [if_neg h2]
      by_cases h3 : p ∈ registryPoints names
      · simp [h3, hiff.mpr h3]
      · have h4 : p ∉ registryPoints (e :: names) := fun hh => h3 (hiff.mp hh)
        simp [h3, h4]

theorem mem_keys_binFold (references : List String) (p : Int)
    (names : Registry) (cl0 : ClassMap) :
    p ∈ (names.foldl (fun classes e =>
        e.2.foldl (fun cl s => dictInsert cl (pyToInt s.2)
          (if references.contains e.1 then 1 else 0)) classes) cl0).map Prod.fst ↔
      p ∈ cl0.map Prod.fst ∨ p ∈ registryPoints names := by
  induction names generalizing cl0 with
  | nil =>
    rw [registryPoints_nil]
    simp
  | cons e names ih =>
    simp only [List.foldl_cons]
    rw [ih, mem_keys_foldl_dictInsert, registryPoints_cons, pointsOfSubs_eq_map,
      List.mem_append]
    tauto

theorem nodup_keys_binFold (references : List String)
    (names : Registry) (cl0 : ClassMap) (h : (cl0.map Prod.fst).Nodup) :
    ((names.foldl (fun classes e =>
        e.2.foldl (fun cl s => dictInsert cl (pyToInt s.2)
          (if references.contains e.1 then 1 else 0)) classes) cl0).map Prod.fst).Nodup := by
  induction names generalizing cl0 with
  | nil => exact h
  | cons e names ih =>
    simp only [List.foldl_cons]
    exact ih _ (nodup_keys_foldl_dictInsert _ _ _ _ h)

theorem coverageFilter_eq (refs : List RefInfo) (coverage : Nat) :
    coverageFilter refs coverage = refs.foldl (fun acc r =>
      if r.readCount ≠ 0 then
        if (r.pileupColumns : ℚ) / (r.refLength : ℚ) ≥ (coverage : ℚ) / 100 then
          acc ++ [r.name]
        else acc
      else acc) [] := rfl

theorem mem_coverageFilter_foldl (coverage : Nat) (refs : List RefInfo)
    (acc : List String) (x : String) :
    x ∈ refs.foldl (fun acc r =>
      if r.readCount ≠ 0 then
        if (r.pileupColumns : ℚ) / (r.refLength : ℚ) ≥ (coverage : ℚ) / 100 then
          acc ++ [r.name]
        else acc
      else acc) acc ↔
    x ∈ acc ∨ ∃ r ∈ refs, r.name = x ∧ r.readCount ≠ 0 ∧
      (coverage : ℚ) / 100 ≤ (r.pileupColumns : ℚ) / (r.refLength : ℚ) := by
  induction refs generalizing acc with
  | nil => simp
  | cons r refs ih =>
    simp only [List.foldl_cons]
    by_cases h1 : r.readCount ≠ 0
    · rw [if_pos h1]
      by_cases h2 : (r.pileupColumns : ℚ) / (r.refLength : ℚ) ≥ (coverage : ℚ) / 100
      · rw [if_pos h2, ih]
        simp only [List.mem_append, List.mem_singleton, List.mem_cons,
          List.not_mem_nil, or_false]
        constructor
        · rintro ((hx | hx) | ⟨r', hr', hP⟩)
          · exact Or.inl hx
          · exact Or.inr ⟨r, Or.inl rfl, hx.symm, h1, h2⟩
          · exact Or.inr ⟨r', Or.inr hr', hP⟩
        · rintro (hx | ⟨r', (hr' | hr'), hP⟩)
          · exact Or.inl (Or.inl hx)
          · exact Or.inl (Or.inr (hr' ▸ hP.1).symm)
          · exact Or.inr ⟨r', hr', hP⟩
      · rw [if_neg h2, ih]
        simp only [List.mem_cons]
        constructor
        · rintro (hx | ⟨r', hr', hP⟩)
          · exact Or.inl hx
          · exact Or.inr ⟨r', Or.inr hr', hP⟩
        · rintro (hx | ⟨r', (hr' | hr'), hP⟩)
          · exact Or.inl hx
          · exact absurd (hr' ▸ hP.2.2) h2
          · exact Or.inr ⟨r', hr', hP⟩
    · rw [if_neg h1, ih]
      simp only [List.mem_cons]
      constructor
      · rintro (hx | ⟨r', hr', hP⟩)
        · exact Or.inl hx
        · exact Or.inr ⟨r', Or.inr hr', hP⟩
      · rintro (hx | ⟨r', (hr' | hr'), hP⟩)
        · exact Or.inl hx
        · exact absurd (hr' ▸ hP.2.1) h1
        · exact Or.inr ⟨r', hr', hP⟩

theorem mem_coverageFilter (refs : List RefInfo) (coverage : Nat) (x : String) :
    x ∈ coverageFilter refs coverage ↔
      ∃ r ∈ refs, r.name = x ∧ r.readCount ≠ 0 ∧
        (coverage : ℚ) / 100 ≤ (r.pileupColumns : ℚ) / (r.refLength : ℚ) := by
  rw [coverageFilter_eq, mem_coverageFilter_foldl]
  simp

end ComponentLemmas

section ScanLemmas

theorem contains_iff_mem (l : List String) (x : String) :
    l.contains x = true ↔ x ∈ l := List.elem_iff

theorem step_cond_iff (names : Registry) (hasBam : Bool) (tl : String)
    (refs0 : List String) (st : ColorState) (row : TaxRow)
    (href : hasBam = true → st.references = refs0) :
    ((dictGet? names row.contig).isSome = true ∧
        row.contig ∈ (if hasBam then st.references else refInsert st.references row.contig) ∧
        row.rank = tl) ↔
      eligibleRow names hasBam refs0 tl row = true := by
  unfold eligibleRow
  cases hasBam with
  | false =>
    simp [mem_refInsert_self, Bool.and_eq_true, beq_iff_eq, and_assoc]
  | true =>
    have h1 : st.references = refs0 := href rfl
    simp [h1, Bool.and_eq_true, beq_iff_eq, contains_iff_mem, and_assoc]

theorem color_taxa_step_elig (names : Registry) (hasBam : Bool) (tl : String)
    (refs0 : List String) (st : ColorState) (row : TaxRow)
    (href : hasBam = true → st.references = refs0)
    (h : eligibleRow names hasBam refs0 tl row = true) :
    color_taxa_step names hasBam tl st row =
      { taxa := if (dictGet? st.taxa row.taxon).isSome then st.taxa
          else dictInsert st.taxa row.taxon st.taxa_number
        classes := assignContig names row.contig
          ((dictGet? (if (dictGet? st.taxa row.taxon).isSome then st.taxa
            else dictInsert st.taxa row.taxon st.taxa_number) row.taxon).getD 0) st.classes
        taxa_number := if (dictGet? st.taxa row.taxon).isSome then st.taxa_number
          else st.taxa_number + 1
        references := if hasBam then st.references else refInsert st.references row.contig } := by
  have hc := (step_cond_iff names hasBam tl refs0 st row href).mpr h
  simp only [color_taxa_step]
  rw [if_pos hc]

theorem color_taxa_step_not_elig (names : Registry) (hasBam : Bool) (tl : String)
    (refs0 : List String) (st : ColorState) (row : TaxRow)
    (href : hasBam = true → st.references = refs0)
    (h : ¬(eligibleRow names hasBam refs0 tl row = true)) :
    color_taxa_step names hasBam tl st row =
      { st with references := if hasBam then st.references
          else refInsert st.references row.contig } := by
  have hc := fun hcond => h ((step_cond_iff names hasBam tl refs0 st row href).mp hcond)
  simp only [color_taxa_step]
  rw [if_neg hc]

theorem step_references_bam (names : Registry) (tl : String) (st : ColorState)
    (row : TaxRow) :
    (color_taxa_step names true tl st row).references = st.references := by
  simp only [color_taxa_step, eq_self_iff_true, if_true]
  split <;> rfl

theorem step_references_nobam (names : Registry) (tl : String) (st : ColorState)
    (row : TaxRow) :
    (color_taxa_step names false tl st row).references =
      refInsert st.references row.contig := by
  simp only [color_taxa_step, Bool.false_eq_true, if_false]
  split <;> rfl

theorem scan_references_bam (names : Registry) (tl : String) (rows : List TaxRow)
    (st0 : ColorState) :
    (rows.foldl (color_taxa_step names true tl) st0).references = st0.references := by
  induction rows generalizing st0 with
  | nil => rfl
  | cons row rows ih => rw [List.foldl_cons, ih, step_references_bam]

theorem scan_references_nobam (names : Registry) (tl : String) (rows : List TaxRow)
    (st0 : ColorState) :
    (rows.foldl (color_taxa_step names false tl) st0).references =
      (rows.map TaxRow.contig).foldl refInsert st0.references := by
  induction rows generalizing st0 with
  | nil => rfl
  | cons row rows ih =>
    rw [List.foldl_cons, ih, List.map_cons, List.foldl_cons, step_references_nobam]

theorem scan_references_inv (names : Registry) (hasBam : Bool) (tl : String)
    (rows : List TaxRow) (refs0 : List String) :
    hasBam = true →
    (rows.foldl (color_taxa_step names hasBam tl)
      { taxa := [], classes := [], taxa_number := 1, references := refs0 }).references =
      refs0 := by
  intro h
  subst h
  exact scan_references_bam names tl rows _

theorem scan_taxa_spec (names : Registry) (refs0 : List String) (hasBam : Bool)
    (tl : String) (rows : List TaxRow) :
    (rows.foldl (color_taxa_step names hasBam tl)
        { taxa := [], classes := [], taxa_number := 1, references := refs0 }).taxa.map
        Prod.fst =
        firstSeen ((rows.filter (eligibleRow names hasBam refs0 tl)).map TaxRow.taxon) ∧
      (rows.foldl (color_taxa_step names hasBam tl)
        { taxa := [], classes := [], taxa_number := 1, references := refs0 }).taxa.map
        Prod.snd =
        List.range' 1 (rows.foldl (color_taxa_step names hasBam tl)
          { taxa := [], classes := [], taxa_number := 1,
            references := refs0 }).taxa.length ∧
      (rows.foldl (color_taxa_step names hasBam tl)
        { taxa := [], classes := [], taxa_number := 1, references := refs0 }).taxa_number =
        (rows.foldl (color_taxa_step names hasBam tl)
          { taxa := [], classes := [], taxa_number := 1,
            references := refs0 }).taxa.length + 1 := by
  induction rows using List.reverseRecOn with
  | nil => simp [firstSeen, firstSeenAux]
  | append_singleton rows row ih =>
    obtain ⟨h1, h2, h3⟩ := ih
    rw [List.foldl_append, List.foldl_cons, List.foldl_nil] at *
    set st := rows.foldl (color_taxa_step names hasBam tl)
      { taxa := [], classes := [], taxa_number := 1, references := refs0 } with hst
    have href : hasBam = true → st.references = refs0 :=
      scan_references_inv names hasBam tl rows refs0
    rw [List.filter_append, List.map_append, List.filter_cons, List.filter_nil]
    by_cases he : eligibleRow names hasBam refs0 tl row = true
    · rw [color_taxa_step_elig names hasBam tl refs0 st row href he, if_pos he]
      dsimp only
      by_cases hs : (dictGet? st.taxa row.taxon).isSome = true
      · rw [if_pos hs, if_pos hs]
        have hmem : row.taxon ∈ (rows.filter
            (eligibleRow names hasBam refs0 tl)).map TaxRow.taxon := by
          rw [← mem_firstSeen, ← h1]
          exact (isSome_dictGet? _ _).mp hs
        simp only [List.map_cons, List.map_nil]
        rw [firstSeen_append_singleton, if_pos hmem, List.append_nil]
        exact ⟨h1, h2, h3⟩
      · rw [if_neg hs, if_neg hs]
        have hnone : dictGet? st.taxa row.taxon = none := by
          cases hg : dictGet? st.taxa row.taxon with
          | none => rfl
          | some w => rw [hg] at hs; simp at hs
        have hkeys : row.taxon ∉ st.taxa.map Prod.fst :=
          (dictGet?_eq_none _ _).mp hnone
        have hins : dictInsert st.taxa row.taxon st.taxa_number =
            st.taxa ++ [(row.taxon, st.taxa_number)] :=
          dictInsert_of_not_mem _ _ _ hkeys
        have hnotmem : row.taxon ∉ (rows.filter
            (eligibleRow names hasBam refs0 tl)).map TaxRow.taxon := by
          intro hmem
          exact hkeys (h1 ▸ (mem_firstSeen _ _).mpr hmem)
        simp only [List.map_cons, List.map_nil]
        rw [hins, firstSeen_append_singleton, if_neg hnotmem]
        refine ⟨?_, ?_, ?_⟩
        · rw [List.map_append, h1]
          rfl
        · have hval : st.taxa_number = 1 + 1 * st.taxa.length := by omega
          rw [List.map_append, h2]
          simp only [List.map_cons, List.map_nil, List.length_append,
            List.length_cons, List.length_nil, Nat.zero_add]
          rw [List.range'_concat, hval]
        · simp only [List.length_append, List.length_cons, List.length_nil]
          omega
    · rw [color_taxa_step_not_elig names hasBam tl refs0 st row href he]
      have hef : eligibleRow names hasBam refs0 tl row = false := by
        cases hb : eligibleRow names hasBam refs0 tl row
        · rfl
        · exact absurd hb he
      rw [if_neg (show ¬(eligibleRow names hasBam refs0 tl row = true) from he)]
      simpa using ⟨h1, h2, h3⟩

theorem scan_classes_spec (names : Registry) (refs0 : List String) (hasBam : Bool)
    (tl : String) (rows : List TaxRow) :
    (∀ p, p ∈ (rows.foldl (color_taxa_step names hasBam tl)
        { taxa := [], classes := [], taxa_number := 1, references := refs0 }).classes.map
          Prod.fst → p ∈ registryPoints names) ∧
      ((rows.foldl (color_taxa_step names hasBam tl)
        { taxa := [], classes := [], taxa_number := 1,
          references := refs0 }).classes.map Prod.fst).Nodup := by
  induction rows using List.reverseRecOn with
  | nil => exact ⟨fun p hp => by simp at hp, by simp⟩
  | append_singleton rows row ih =>
    rw [List.foldl_append, List.foldl_cons, List.foldl_nil]
    set st := rows.foldl (color_taxa_step names hasBam tl)
      { taxa := [], classes := [], taxa_number := 1, references := refs0 } with hst
    have href : hasBam = true → st.references = refs0 :=
      scan_references_inv names hasBam tl rows refs0
    by_cases he : eligibleRow names hasBam refs0 tl row = true
    · rw [color_taxa_step_elig names hasBam tl refs0 st row href he]
      dsimp only
      constructor
      · intro p hp
        unfold assignContig at hp
        rw [mem_keys_foldl_dictInsert] at hp
        rcases hp with hp | hp
        · exact ih.1 p hp
        · have hsome : (dictGet? names row.contig).isSome = true := by
            unfold eligibleRow at he
            rw [Bool.and_eq_true, Bool.and_eq_true] at he
            exact he.1.1
          cases hg : dictGet? names row.contig with
          | none => rw [hg] at hsome; simp at hsome
          | some subs =>
            rw [hg] at hp
            unfold registryPoints
            refine List.mem_flatMap.mpr ⟨(row.contig, subs), dictGet?_some_mem _ _ _ hg, ?_⟩
            rw [pointsOfSubs_eq_map]
            exact hp
      · unfold assignContig
        exact nodup_keys_foldl_dictInsert _ _ _ _ ih.2
    · rw [color_taxa_step_not_elig names hasBam tl refs0 st row href he]
      exact ih

theorem scan_classes_lastwrite (names : Registry) (refs0 : List String) (hasBam : Bool)
    (tl : String) (c : String) (p : Int)
    (hU : ∀ e ∈ names, p ∈ pointsOfSubs e.2 → e.1 = c)
    (hp : p ∈ pointsOf names c) (rows : List TaxRow) (r : TaxRow)
    (hlast : (rows.filter (fun row => eligibleRow names hasBam refs0 tl row
        && (row.contig == c))).getLast? = some r) :
    ∃ v, dictGet? (rows.foldl (color_taxa_step names hasBam tl)
          { taxa := [], classes := [], taxa_number := 1, references := refs0 }).taxa
        r.taxon = some v ∧
      dictGet? (rows.foldl (color_taxa_step names hasBam tl)
          { taxa := [], classes := [], taxa_number := 1,
            references := refs0 }).classes p = some v := by
  induction rows using List.reverseRecOn generalizing r with
  | nil => simp at hlast
  | append_singleton rows row ih =>
    rw [List.foldl_append, List.foldl_cons, List.foldl_nil]
    set st := rows.foldl (color_taxa_step names hasBam tl)
      { taxa := [], classes := [], taxa_number := 1, references := refs0 } with hst
    have href : hasBam = true → st.references = refs0 :=
      scan_references_inv names hasBam tl rows refs0
    rw [List.filter_append, List.filter_cons, List.filter_nil] at hlast
    by_cases hcr : (eligibleRow names hasBam refs0 tl row && (row.contig == c)) = true
    · rw [if_pos hcr, List.getLast?_concat] at hlast
      have hr : r = row := by injection hlast with h; exact h.symm
      rw [hr]
      have he : eligibleRow names hasBam refs0 tl row = true := by
        rw [Bool.and_eq_true] at hcr; exact hcr.1
      have hcc : row.contig = c := by
        rw [Bool.and_eq_true] at hcr; exact beq_iff_eq.mp hcr.2
      rw [color_taxa_step_elig names hasBam tl refs0 st row href he]
      dsimp only
      by_cases hs : (dictGet? st.taxa row.taxon).isSome = true
      · rw [if_pos hs]
        obtain ⟨w, hw⟩ := Option.isSome_iff_exists.mp hs
        refine ⟨w, hw, ?_⟩
        rw [dictGet?_assignContig, hcc, if_pos hp, hw]
        rfl
      · rw [if_neg hs]
        refine ⟨st.taxa_number, dictGet?_dictInsert_self _ _ _, ?_⟩
        rw [dictGet?_assignContig, hcc, if_pos hp, dictGet?_dictInsert_self]
        rfl
    · rw [if_neg hcr, List.append_nil] at hlast
      obtain ⟨v, hv1, hv2⟩ := ih r hlast
      by_cases he : eligibleRow names hasBam refs0 tl row = true
      · have hnc : ¬(row.contig = c) := by
          intro hh
          exact hcr (by rw [Bool.and_eq_true]; exact ⟨he, beq_iff_eq.mpr hh⟩)
        have hnp : p ∉ pointsOf names row.contig := by
          intro hmem
          unfold pointsOf at hmem
          cases hg : dictGet? names row.contig with
          | none =>
            rw [hg] at hmem
            simp [pointsOfSubs] at hmem
          | some subs =>
            rw [hg] at hmem
            exact hnc (hU (row.contig, subs) (dictGet?_some_mem _ _ _ hg) hmem)
        rw [color_taxa_step_elig names hasBam tl refs0 st row href he]
        dsimp only
        by_cases hs : (dictGet? st.taxa row.taxon).isSome = true
        · rw [if_pos hs]
          exact ⟨v, hv1, by rw [dictGet?_assignContig, if_neg hnp]; exact hv2⟩
        · rw [if_neg hs]
          have hne : r.taxon ≠ row.taxon := by
            intro hh
            rw [hh] at hv1
            rw [hv1] at hs
            simp at hs
          refine ⟨v, ?_, by rw [dictGet?_assignContig, if_neg hnp]; exact hv2⟩
          rw [dictGet?_dictInsert_ne _ _ _ _ hne]
          exact hv1
      · rw [color_taxa_step_not_elig names hasBam tl refs0 st row href he]
        exact ⟨v, hv1, hv2⟩

end ScanLemmas

section WriterLemmas

theorem classBody_map_fst (classes : ClassMap) :
    (classBody classes).map Prod.fst = sortedKeys classes := by
  unfold classBody
  rw [List.map_map]
  exact List.map_id _

theorem count_sortedKeys (classes : ClassMap) (p : Int) :
    (sortedKeys classes).count p = (classes.map Prod.fst).count p := by
  unfold sortedKeys
  exact (List.perm_insertionSort _ _).count_eq p

theorem count_keys_of_nodup {l : List Int} (h : l.Nodup) (p : Int) :
    l.count p = if p ∈ l then 1 else 0 := by
  by_cases hm : p ∈ l
  · rw [if_pos hm]
    exact List.count_eq_one_of_mem h hm
  · rw [if_neg hm]
    exact List.count_eq_zero.mpr hm

theorem rainbow_picker_length (scale : Nat) : (rainbow_picker scale).length = scale := by
  unfold rainbow_picker
  rw [List.length_map, List.length_map]
  exact List.length_range scale

theorem hsv_to_rgb_bounds (h : ℚ) (hh : 0 ≤ h) :
    (0 ≤ (hsv_to_rgb h 1 1).1 ∧ (hsv_to_rgb h 1 1).1 ≤ 1) ∧
      (0 ≤ (hsv_to_rgb h 1 1).2.1 ∧ (hsv_to_rgb h 1 1).2.1 ≤ 1) ∧
      (0 ≤ (hsv_to_rgb h 1 1).2.2 ∧ (hsv_to_rgb h 1 1).2.2 ≤ 1) := by
  unfold hsv_to_rgb
  rw [if_neg (one_ne_zero : (1 : ℚ) ≠ 0)]
  have hnn : ¬(h * 6 < 0) := not_lt.mpr (by positivity)
  unfold pyIntQ
  rw [if_neg hnn]
  have hf0 : (0 : ℚ) ≤ h * 6 - (⌊h * 6⌋ : ℚ) := sub_nonneg.mpr (Int.floor_le _)
  have hf1 : h * 6 - (⌊h * 6⌋ : ℚ) ≤ 1 := by
    have := Int.lt_floor_add_one (h * 6)
    linarith
  dsimp only
  split_ifs <;> refine ⟨⟨?_, ?_⟩, ⟨?_, ?_⟩, ⟨?_, ?_⟩⟩ <;> dsimp only <;> nlinarith

end WriterLemmas

end EsomTracer

namespace PhylosiftBins

theorem readline_length_pos (c : Char) (cs : List Char) :
    0 < (readline (c :: cs)).length := by
  rw [readline]
  split <;> simp

theorem buildIndexAux_spec (content : List Char) :
    ∀ (fuel : Nat) (l : List Char) (pos : Nat), l = content.drop pos →
      ∀ q ∈ buildIndexAux fuel l pos,
        extractName (readline (content.drop q.2)) = q.1 ∧ pos ≤ q.2 := by
  intro fuel
  induction fuel with
  | zero =>
    intro l pos hl q hq
    simp [buildIndexAux] at hq
  | succ fuel ih =>
    intro l pos hl q hq
    cases l with
    | nil => simp [buildIndexAux] at hq
    | cons c cs =>
      simp only [buildIndexAux] at hq
      rcases List.mem_cons.mp hq with hq | hq
      · subst hq
        refine ⟨?_, Nat.le_refl pos⟩
        rw [← hl]
      · have hl2 : (c :: cs).drop (readline (c :: cs)).length =
            content.drop (pos + (readline (c :: cs)).length) := by
          rw [hl, List.drop_drop]
        obtain ⟨h1, h2⟩ := ih _ _ hl2 q hq
        exact ⟨h1, Nat.le_trans (Nat.le_add_right _ _) h2⟩

theorem buildIndexAux_offsets_lt :
    ∀ (fuel : Nat) (l : List Char) (pos : Nat),
      (∀ q ∈ buildIndexAux fuel l pos, pos ≤ q.2) ∧
      (buildIndexAux fuel l pos).Pairwise (fun a b => a.2 < b.2) := by
  intro fuel
  induction fuel with
  | zero =>
    intro l pos
    simp [buildIndexAux]
  | succ fuel ih =>
    intro l pos
    cases l with
    | nil => simp [buildIndexAux]
    | cons c cs =>
      simp only [buildIndexAux]
      obtain ⟨ihle, ihpw⟩ := ih ((c :: cs).drop (readline (c :: cs)).length)
        (pos + (readline (c :: cs)).length)
      constructor
      · intro q hq
        rcases List.mem_cons.mp hq with hq | hq
        · subst hq
          exact Nat.le_refl pos
        · exact Nat.le_trans (Nat.le_add_right _ _) (ihle q hq)
      · refine List.Pairwise.cons ?_ ihpw
        intro q hq
        have hle := ihle q hq
        have hpos : pos < pos + (readline (c :: cs)).length :=
          Nat.lt_add_of_pos_right (readline_length_pos c cs)
        exact Nat.lt_of_lt_of_le hpos hle

theorem file_index_spec (content : List Char) (r : List Char) (o : Nat)
    (h : (r, o) ∈ file_index content) :
    extractName (readline (content.drop o)) = r := by
  unfold file_index at h
  exact (buildIndexAux_spec content content.length
    (content.drop (readline content).length) (readline content).length rfl (r, o) h).1

theorem file_index_offsets_pairwise (content : List Char) :
    (file_index content).Pairwise (fun a b => a.2 < b.2) := by
  unfold file_index
  exact (buildIndexAux_offsets_lt content.length _ _).2

theorem offsetsFor_pairwise (content : List Char) (r : List Char) :
    (offsetsFor content r).Pairwise (· < ·) := by
  unfold offsetsFor
  exact (List.pairwise_map).mpr ((file_index_offsets_pairwise content).filter _)

end PhylosiftBins

namespace EsomTracer

/-- C9: the claim says a NAMES-table data row with fewer than 3
tab-delimited columns must surface a reported `MalformedRow` parse error
identifying the offending line.  The code instead crashes: evaluating
`names_dict` on a table whose single data row has one column yields an
uncaught `IndexError` (from `columns[2]`), which identifies nothing. -/
theorem esom_C9_short_row_crash :
    names_dict [("PointID\tSub\tContig"), ("5")] = Except.error PyError.indexError := by
  rfl

/-- C6 (code bug): the claim says rank matching is case-insensitive on
both sides.  The code lowercases only the user-supplied rank and compares
it to the raw rank column, so a row whose rank column is "Genus" is
ineligible even when the requested rank is the identical string "Genus"
(the taxa map stays empty and the contig's point defaults to class 0),
while the same row with the already-lowercase rank column "genus"
is eligible. -/
theorem esom_C6_rank_case_bug :
    (color_taxa [("c1", [("s1", "1")])] ["c1"] true
        [⟨"c1", "Genus", "Foo"⟩] ("Genus")).taxa = [] ∧
      dictGet? (color_taxa [("c1", [("s1", "1")])] ["c1"] true
        [⟨"c1", "Genus", "Foo"⟩] ("Genus")).classes 1 = some 0 ∧
      (color_taxa [("c1", [("s1", "1")])] ["c1"] true
        [⟨"c1", "genus", "Foo"⟩] ("Genus")).taxa = [("Foo", 1)] := by
  refine ⟨by decide, by decide, by decide⟩

/-- C5 counterexample: the claim says the class-file header count is 0
whenever no alignment source is given, in both modes.  In taxonomic mode
without a BAM the bypass inserts every taxonomy row's contig into
`references`, so with one data row the header counts 1, not 0. -/
theorem esom_C5_counterexample :
    (color_taxa [] [] false [⟨"c1", "genus", "Foo"⟩] ("genus")).references.length ≠ 0 := by
  decide

/-- C5 (amended): the header line states `len(references)`.  With an
alignment source that is the count of contigs that passed the coverage
filter (the taxonomic scan leaves `references` unchanged when a BAM was
given); in binary mode without an alignment source it is 0; but in
taxonomic mode without an alignment source it equals the number of
distinct contig IDs among the taxonomy data rows. -/
theorem esom_C5_amended (names : Registry) (refs0 : List String)
    (rows : List TaxRow) (tax_level : String) (header_colors : List String)
    (classes : ClassMap) (references : List String) :
    (classFile references header_colors classes).head? =
        some ("% " ++ pyStrOfNat references.length) ∧
      (color_taxa names refs0 true rows tax_level).references = refs0 ∧
      (color_taxa names [] false rows tax_level).references.length =
        (rows.map TaxRow.contig).dedup.length := by
  refine ⟨rfl, ?_, ?_⟩
  · exact scan_references_bam names (pyLower tax_level) rows _
  · rw [show (color_taxa names [] false rows tax_level).references =
        (rows.map TaxRow.contig).foldl refInsert [] from
      scan_references_nobam names (pyLower tax_level) rows
        { taxa := [], classes := [], taxa_number := 1, references := [] }]
    exact length_refInsert_foldl_nil _

/-- C3: a reference is in the hit set iff its mapped-read count is
non-zero and `basesWithAlignment / referenceLength` (a pileup-column
count over the full reference length) is at least
`thresholdPercent / 100`; the default threshold is 50. -/
theorem esom_C3 (refs : List RefInfo) (coverage : Nat) (r : RefInfo)
    (hmem : r ∈ refs) (hnodup : (refs.map RefInfo.name).Nodup) :
    (r.name ∈ coverageFilter refs coverage ↔
        r.readCount ≠ 0 ∧
          (coverage : ℚ) / 100 ≤ (r.pileupColumns : ℚ) / (r.refLength : ℚ)) ∧
      coverage_default = 50 := by
  refine ⟨?_, rfl⟩
  rw [mem_coverageFilter]
  constructor
  · rintro ⟨r', hr', hname, hc1, hc2⟩
    have hrr : r' = r := List.inj_on_of_nodup_map hnodup hr' hmem hname
    subst hrr
    exact ⟨hc1, hc2⟩
  · rintro ⟨hc1, hc2⟩
    exact ⟨r, hmem, rfl, hc1, hc2⟩

theorem esom_C3_witness :
    (("r1" : String) ∈ coverageFilter [⟨"r1", 3, 60, 100⟩] 50 ↔
        (3 : Nat) ≠ 0 ∧
          ((50 : Nat) : ℚ) / 100 ≤ ((60 : Nat) : ℚ) / ((100 : Nat) : ℚ)) ∧
      coverage_default = 50 :=
  esom_C3 [⟨"r1", 3, 60, 100⟩] 50 ⟨"r1", 3, 60, 100⟩ (by decide) (by decide)

end EsomTracer

namespace PhylosiftBins

/-- C7: for every (identifier, offset) pair recorded by the forward scan
of the taxonomy stream (header discarded, offset recorded before each
line), seeking to the offset and reading one line yields a line whose
first tab-delimited column's first whitespace-delimited token is exactly
that identifier, and the identifier's offset list is strictly increasing,
i.e. in file order. -/
theorem phylosift_C7 (content : List Char) (r : List Char) (o : Nat)
    (h : (r, o) ∈ file_index content) :
    extractName (readline (content.drop o)) = r ∧
      (offsetsFor content r).Pairwise (· < ·) :=
  ⟨file_index_spec content r o h, offsetsFor_pairwise content r⟩

theorem phylosift_C7_witness :
    extractName (readline ((("h\nr1 x\tA\nr1\tB\n").toList).drop 2)) = ("r1").toList ∧
      (offsetsFor (("h\nr1 x\tA\nr1\tB\n").toList) (("r1").toList)).Pairwise (· < ·) :=
  phylosift_C7 (("h\nr1 x\tA\nr1\tB\n").toList) (("r1").toList) 2 (by decide)

end PhylosiftBins

namespace EsomTracer

/-- C1: in taxonomic mode the distinct taxon names among eligible rows
are assigned class indices 1, 2, ... in first-seen order (class 0 never
being handed to a taxon); the number of classes assigned equals the
number of distinct taxon names among eligible rows; the generated
palette has that count plus 1 entries; and the legend lists
(class index, taxon name) pairs sorted ascending by class index. -/
theorem esom_C1 (names : Registry) (refs0 : List String) (hasBam : Bool)
    (rows : List TaxRow) (tax_level : String) :
    (color_taxa names refs0 hasBam rows tax_level).taxa.map Prod.fst =
        firstSeen (eligTaxa names hasBam refs0 (pyLower tax_level) rows) ∧
      (color_taxa names refs0 hasBam rows tax_level).taxa.map Prod.snd =
        List.range' 1 (color_taxa names refs0 hasBam rows tax_level).taxa.length ∧
      (color_taxa names refs0 hasBam rows tax_level).taxa.length =
        (eligTaxa names hasBam refs0 (pyLower tax_level) rows).dedup.length ∧
      (rainbow_picker (color_taxa names refs0 hasBam rows tax_level).taxa_number).length =
        (color_taxa names refs0 hasBam rows tax_level).taxa.length + 1 ∧
      ((legendOf (color_taxa names refs0 hasBam rows tax_level).taxa).map
        Prod.fst).Sorted (· ≤ ·) ∧
      List.Perm (legendOf (color_taxa names refs0 hasBam rows tax_level).taxa)
        ((color_taxa names refs0 hasBam rows tax_level).taxa.map (fun q => (q.2, q.1))) := by
  obtain ⟨h1, h2, h3⟩ := scan_taxa_spec names refs0 hasBam (pyLower tax_level) rows
  have htaxa : (color_taxa names refs0 hasBam rows tax_level).taxa =
      (rows.foldl (color_taxa_step names hasBam (pyLower tax_level))
        { taxa := [], classes := [], taxa_number := 1, references := refs0 }).taxa := rfl
  have htn : (color_taxa names refs0 hasBam rows tax_level).taxa_number =
      (rows.foldl (color_taxa_step names hasBam (pyLower tax_level))
        { taxa := [], classes := [], taxa_number := 1, references := refs0 }).taxa_number :=
    rfl
  refine ⟨?_, ?_, ?_, ?_, ?_, ?_⟩
  · rw [htaxa]
    unfold eligTaxa
    exact h1
  · rw [htaxa]
    exact h2
  · rw [htaxa]
    have hlen : (rows.foldl (color_taxa_step names hasBam (pyLower tax_level))
        { taxa := [], classes := [], taxa_number := 1,
          references := refs0 }).taxa.length =
        (firstSeen ((rows.filter
          (eligibleRow names hasBam refs0 (pyLower tax_level))).map TaxRow.taxon)).length := by
      rw [← h1, List.length_map]
    rw [hlen]
    unfold eligTaxa
    exact length_firstSeen_eq_length_dedup _
  · rw [rainbow_picker_length, htn, htaxa]
    exact h3
  · unfold legendOf
    rw [List.map_map]
    have hcomp : (Prod.fst ∘ fun p : String × Nat => (p.2, p.1)) =
        (fun p : String × Nat => p.2) := rfl
    rw [hcomp]
    exact (List.pairwise_map).mpr
      (List.sorted_insertionSort taxaValLE
        (color_taxa names refs0 hasBam rows tax_level).taxa)
  · unfold legendOf
    exact (List.perm_insertionSort taxaValLE _).map _

/-- C4: in both modes every point-ID of the NameRegistry has exactly one
entry in the final class map and hence exactly one body line in the
class file; a point never assigned during the taxonomy scan keeps its
scan value if assigned, defaults to class 0 if present in the registry,
and is absent otherwise. -/
theorem esom_C4 (names : Registry) (refs0 : List String) (hasBam : Bool)
    (rows : List TaxRow) (tax_level : String) (references : List String) (p : Int) :
    ((color_taxa names refs0 hasBam rows tax_level).classes.map Prod.fst).count p =
        (if p ∈ registryPoints names then 1 else 0) ∧
      ((classBody (color_taxa names refs0 hasBam rows tax_level).classes).map
          Prod.fst).count p = (if p ∈ registryPoints names then 1 else 0) ∧
      dictGet? (color_taxa names refs0 hasBam rows tax_level).classes p =
        (if (dictGet? (color_taxa_scan names refs0 hasBam rows tax_level).classes p).isSome
          then dictGet? (color_taxa_scan names refs0 hasBam rows tax_level).classes p
          else if p ∈ registryPoints names then some 0 else none) ∧
      ((binaryClasses names references).map Prod.fst).count p =
        (if p ∈ registryPoints names then 1 else 0) ∧
      ((classBody (binaryClasses names references)).map Prod.fst).count p =
        (if p ∈ registryPoints names then 1 else 0) := by
  have hscan := scan_classes_spec names refs0 hasBam (pyLower tax_level) rows
  have hkeys : ∀ q, q ∈ (color_taxa names refs0 hasBam rows tax_level).classes.map
      Prod.fst ↔ q ∈ registryPoints names := by
    intro q
    have hm := mem_keys_fillZeros names
      (rows.foldl (color_taxa_step names hasBam (pyLower tax_level))
        { taxa := [], classes := [], taxa_number := 1, references := refs0 }).classes q
    constructor
    · intro hq
      rcases hm.mp hq with hq | hq
      · exact hscan.1 q hq
      · exact hq
    · intro hq
      exact hm.mpr (Or.inr hq)
  have hnodup : ((color_taxa names refs0 hasBam rows tax_level).classes.map
      Prod.fst).Nodup :=
    nodup_keys_fillZeros names _ hscan.2
  have hbmem : ∀ q, q ∈ (binaryClasses names references).map Prod.fst ↔
      q ∈ registryPoints names := by
    intro q
    rw [binaryClasses_eq, mem_keys_binFold]
    simp
  have hbnodup : ((binaryClasses names references).map Prod.fst).Nodup := by
    rw [binaryClasses_eq]
    exact nodup_keys_binFold _ _ _ (by simp)
  refine ⟨?_, ?_, ?_, ?_, ?_⟩
  · rw [count_keys_of_nodup hnodup p]
    exact if_congr (hkeys p) rfl rfl
  · rw [classBody_map_fst, count_sortedKeys, count_keys_of_nodup hnodup p]
    exact if_congr (hkeys p) rfl rfl
  · exact dictGet?_fillZeros names _ p
  · rw [count_keys_of_nodup hbnodup p]
    exact if_congr (hbmem p) rfl rfl
  · rw [classBody_map_fst, count_sortedKeys, count_keys_of_nodup hbnodup p]
    exact if_congr (hbmem p) rfl rfl

end EsomTracer

namespace EsomTracer

/-- C2: in binary mode a point's class is 1 iff its contig is in the hit
set, otherwise 0; the palette is the fixed white/red pair; and on the
scenario names table (1,s1,c1),(2,s2,c1),(3,s3,c2) with hit set `c1` the
class file is the header `% 1`, the two palette lines, and the body
lines 1→1, 2→1, 3→0. -/
theorem esom_C2 (names : Registry) (references : List String)
    (c sub pt : String) (subs : List (String × String))
    (hU : ∀ e ∈ names, pyToInt pt ∈ pointsOfSubs e.2 → e.1 = c)
    (hmem : (c, subs) ∈ names) (hsub : (sub, pt) ∈ subs) :
    dictGet? (binaryClasses names references) (pyToInt pt) =
        some (if references.contains c then 1 else 0) ∧
      binary_header_colors = [("%0 255\t255\t255"), ("%1 255\t0\t0")] ∧
      names_dict [("Header"), ("1\ts1\tc1"), ("2\ts2\tc1"), ("3\ts3\tc2")] =
        Except.ok [("c1", [("s1", "1"), ("s2", "2")]), ("c2", [("s3", "3")])] ∧
      classFile [("c1")] binary_header_colors
          (binaryClasses [("c1", [("s1", "1"), ("s2", "2")]), ("c2", [("s3", "3")])]
            [("c1")]) =
        [("% 1"), ("%0 255\t255\t255"), ("%1 255\t0\t0"), ("1\t1"), ("2\t1"), ("3\t0")] := by
  refine ⟨?_, rfl, by rfl, by decide⟩
  rw [binaryClasses_eq, dictGet?_binFold references c (pyToInt pt) names [] hU]
  have hin : pyToInt pt ∈ registryPoints names := by
    unfold registryPoints
    refine List.mem_flatMap.mpr ⟨(c, subs), hmem, ?_⟩
    rw [pointsOfSubs_eq_map]
    exact List.mem_map.mpr ⟨(sub, pt), hsub, rfl⟩
  rw [if_pos hin]

theorem esom_C2_witness :
    dictGet? (binaryClasses [("c1", [("s1", "1"), ("s2", "2")]), ("c2", [("s3", "3")])]
        [("c1")]) (pyToInt ("1")) =
      some (if List.contains [("c1")] ("c1") then 1 else 0) :=
  (esom_C2 [("c1", [("s1", "1"), ("s2", "2")]), ("c2", [("s3", "3")])] [("c1")]
    ("c1") ("s1") ("1") [("s1", "1"), ("s2", "2")]
    (by decide) (by decide) (by decide)).1

/-- C8 counterexample: the claim says `rainbow_picker` returns integer
RGB triples.  At class count 4 the second triple is (127.5, 255, 0),
whose first component has a non-zero fractional part, hence is not an
integer. -/
theorem esom_C8_counterexample :
    (rainbow_picker 4).get? 1 = some ((255 : ℚ) / 2, 255, 0) ∧
      Int.fract ((255 : ℚ) / 2) ≠ 0 := by
  constructor
  · norm_num [rainbow_picker, hsv_to_rgb, pyIntQ, List.range_succ]
  · rw [Int.fract]
    norm_num

/-- C8 (amended): `rainbow_picker` partitions the hue circle into
`classCount` equal sectors starting at hue 0 with saturation and value 1
and returns, in hue order, one RGB triple per class whose components are
rationals in [0, 255]; the components are scaled by 255 but not rounded
to integers.  Determinism is immediate since the embedding is a pure
function of `classCount`. -/
theorem esom_C8_amended (scale : Nat) (c : ℚ × ℚ × ℚ)
    (hc : c ∈ rainbow_picker scale) :
    rainbow_picker scale = (List.range scale).map (fun (i : Nat) =>
        ((hsv_to_rgb ((i : ℚ) / (scale : ℚ)) 1 1).1 * 255,
          (hsv_to_rgb ((i : ℚ) / (scale : ℚ)) 1 1).2.1 * 255,
          (hsv_to_rgb ((i : ℚ) / (scale : ℚ)) 1 1).2.2 * 255)) ∧
      (0 ≤ c.1 ∧ c.1 ≤ 255) ∧ (0 ≤ c.2.1 ∧ c.2.1 ≤ 255) ∧
        (0 ≤ c.2.2 ∧ c.2.2 ≤ 255) := by
  have hstruct : rainbow_picker scale = (List.range scale).map (fun (i : Nat) =>
      ((hsv_to_rgb ((i : ℚ) / (scale : ℚ)) 1 1).1 * 255,
        (hsv_to_rgb ((i : ℚ) / (scale : ℚ)) 1 1).2.1 * 255,
        (hsv_to_rgb ((i : ℚ) / (scale : ℚ)) 1 1).2.2 * 255)) := by
    unfold rainbow_picker
    rw [List.map_map]
    rfl
  refine ⟨hstruct, ?_⟩
  rw [hstruct] at hc
  obtain ⟨i, hi, rfl⟩ := List.mem_map.mp hc
  have hh : (0 : ℚ) ≤ (i : ℚ) / (scale : ℚ) := by positivity
  obtain ⟨⟨a1, a2⟩, ⟨b1, b2⟩, ⟨c1, c2⟩⟩ := hsv_to_rgb_bounds ((i : ℚ) / (scale : ℚ)) hh
  refine ⟨⟨?_, ?_⟩, ⟨?_, ?_⟩, ⟨?_, ?_⟩⟩ <;> dsimp only <;> nlinarith

theorem esom_C8_amended_witness :
    (0 ≤ ((255 : ℚ) / 2, (255 : ℚ), (0 : ℚ)).1 ∧
        ((255 : ℚ) / 2, (255 : ℚ), (0 : ℚ)).1 ≤ 255) ∧
      (0 ≤ ((255 : ℚ) / 2, (255 : ℚ), (0 : ℚ)).2.1 ∧
        ((255 : ℚ) / 2, (255 : ℚ), (0 : ℚ)).2.1 ≤ 255) ∧
      (0 ≤ ((255 : ℚ) / 2, (255 : ℚ), (0 : ℚ)).2.2 ∧
        ((255 : ℚ) / 2, (255 : ℚ), (0 : ℚ)).2.2 ≤ 255) :=
  (esom_C8_amended 4 ((255 : ℚ) / 2, 255, 0)
    (by norm_num [rainbow_picker, hsv_to_rgb, pyIntQ, List.range_succ])).2

/-- C10 (implicit): when a contig has eligible taxonomy rows, every one
of the contig's points ends up with the class of the LAST eligible row
for that contig in file order (each later eligible row overwrites the
contig's earlier point assignments), while the taxon-to-class numbering
stays first-seen. -/
theorem esom_C10 (names : Registry) (refs0 : List String) (hasBam : Bool)
    (rows : List TaxRow) (tax_level c : String) (p : Int) (r : TaxRow)
    (hU : ∀ e ∈ names, p ∈ pointsOfSubs e.2 → e.1 = c)
    (hp : p ∈ pointsOf names c)
    (hlast : (rows.filter (fun row =>
        eligibleRow names hasBam refs0 (pyLower tax_level) row
          && (row.contig == c))).getLast? = some r) :
    dictGet? (color_taxa names refs0 hasBam rows tax_level).classes p =
        dictGet? (color_taxa names refs0 hasBam rows tax_level).taxa r.taxon ∧
      (dictGet? (color_taxa names refs0 hasBam rows tax_level).taxa r.taxon).isSome
        = true ∧
      (color_taxa names refs0 hasBam rows tax_level).taxa.map Prod.fst =
        firstSeen (eligTaxa names hasBam refs0 (pyLower tax_level) rows) := by
  obtain ⟨v, hv1, hv2⟩ := scan_classes_lastwrite names refs0 hasBam (pyLower tax_level)
    c p hU hp rows r hlast
  have htaxa : (color_taxa names refs0 hasBam rows tax_level).taxa =
      (rows.foldl (color_taxa_step names hasBam (pyLower tax_level))
        { taxa := [], classes := [], taxa_number := 1, references := refs0 }).taxa := rfl
  have hcl : dictGet? (color_taxa names refs0 hasBam rows tax_level).classes p =
      some v := by
    have hfz := dictGet?_fillZeros names
      (rows.foldl (color_taxa_step names hasBam (pyLower tax_level))
        { taxa := [], classes := [], taxa_number := 1, references := refs0 }).classes p
    rw [hv2] at hfz
    simp at hfz
    exact hfz
  refine ⟨?_, ?_, ?_⟩
  · rw [hcl, htaxa, hv1]
  · rw [htaxa, hv1]
    rfl
  · rw [htaxa]
    unfold eligTaxa
    exact (scan_taxa_spec names refs0 hasBam (pyLower tax_level) rows).1

theorem esom_C10_witness :
    dictGet? (color_taxa [("c1", [("s1", "1"), ("s2", "2")]), ("c2", [("s3", "3")])]
        [] false
        [⟨"c1", "genus", "Foo"⟩, ⟨"c2", "genus", "Bar"⟩, ⟨"c1", "genus", "Baz"⟩]
        ("genus")).classes 1 =
      dictGet? (color_taxa [("c1", [("s1", "1"), ("s2", "2")]), ("c2", [("s3", "3")])]
        [] false
        [⟨"c1", "genus", "Foo"⟩, ⟨"c2", "genus", "Bar"⟩, ⟨"c1", "genus", "Baz"⟩]
        ("genus")).taxa ("Baz") :=
  (esom_C10 [("c1", [("s1", "1"), ("s2", "2")]), ("c2", [("s3", "3")])] [] false
    [⟨"c1", "genus", "Foo"⟩, ⟨"c2", "genus", "Bar"⟩, ⟨"c1", "genus", "Baz"⟩]
    ("genus") ("c1") 1 ⟨"c1", "genus", "Baz"⟩
    (by decide) (by decide) (by decide)).1

end EsomTracer
